import Mathlib

/-!
Verification of the autorun-record construction core of `go-autoruns`
(`src/autoruns_windows.go`): the path normalizer, the command-line
resolver with its progressive whitespace-boundary search, the quoted
split, and the record builder `stringToAutorun`.

Modelling conventions.
Go strings are modelled as `List Char` (the file manipulates them at
ASCII granularity, where byte indexing and char indexing coincide).
External collaborators of the core are parameters of an `Env` record:
`exec.LookPath` (filesystem search-path resolution), `registry.ExpandString`
(environment-variable expansion), `filepath.Clean` (pure canonicalization of
the OS path lib), `files.HashFile` (content digests), and `os.Getenv("SystemRoot")`.
Everything written in the repository itself is translated directly.
-/

set_option autoImplicit false

/-- Go strings, as lists of characters. -/
abbrev Str := List Char

/-- `strings.HasPrefix p s`-style test: does `s` start with `p`? -/
def hasPfx : Str → Str → Bool
  | [], _ => true
  | _ :: _, [] => false
  | c :: cs, d :: ds => c = d && hasPfx cs ds

/-- `strings.ToLower`, characterwise (ASCII case folding; the tokens the
source compares against are pure ASCII). -/
def toLowerStr (s : Str) : Str := s.map Char.toLower

/-- The character class of `strings.IndexAny(s, " \t")` in the resolver loop. -/
def isWsChar (c : Char) : Bool := c = ' ' || c = '\t'

/-- `unicode.IsSpace`, for `strings.TrimSpace`. -/
def goIsSpace (c : Char) : Bool :=
  c = ' ' || c = '\t' || c = '\n' || c = Char.ofNat 11 || c = Char.ofNat 12 ||
    c = '\r' || c = Char.ofNat 133 || c = Char.ofNat 160

/-- `strings.TrimSpace`: drop leading and trailing whitespace. -/
def trimSpace (s : Str) : Str :=
  ((s.dropWhile goIsSpace).reverse.dropWhile goIsSpace).reverse

/-- First index in `s` whose character satisfies `p` (`-1` becomes `none`). -/
def findIdxP (p : Char → Bool) : Str → Option Nat
  | [] => none
  | c :: rest => if p c then some 0 else (findIdxP p rest).map (· + 1)

/-- `strings.IndexAny(s, " \t")`. -/
def indexAnyWs (s : Str) : Option Nat := findIdxP isWsChar s

/-- `strings.Index(s, t)` for a one-character needle `t`. -/
def indexOfChar (target : Char) (s : Str) : Option Nat :=
  findIdxP (fun c => c = target) s

/-- Character of `s` at index `i` (the call sites only read in-bounds
indices; the default is irrelevant). -/
def charAt (s : Str) (i : Nat) : Char := (s.get? i).getD (Char.ofNat 0)

/-- One scanning pass of `strings.Replace(s, old, new, -1)`, with explicit
fuel so that the definition computes by kernel reduction.  Each step
consumes at least one character of `s`, so fuel `s.length` always
suffices (`replaceAllGo_fuel` below); the zero-fuel branch is unreachable
from `replaceAll`.  The source only ever calls this with nonempty `old`. -/
def replaceAllGo (old new : Str) : Nat → Str → Str
  | _, [] => []
  | 0, s => s
  | fuel + 1, c :: rest =>
    if old ≠ [] ∧ hasPfx old (c :: rest) = true then
      new ++ replaceAllGo old new fuel (rest.drop (old.length - 1))
    else
      c :: replaceAllGo old new fuel rest

/-- `strings.Replace(s, old, new, -1)`: replace every non-overlapping
occurrence of `old`, scanning left to right (for nonempty `old`). -/
def replaceAll (old new s : Str) : Str := replaceAllGo old new s.length s

/-- The kernel object-namespace marker stripped at line 34. -/
def kernelPfx : Str := "\\??\\".toList

/-- The case-folded `"\\systemroot"` token compared at line 37. -/
def sysrootTok : Str := "\\systemroot".toList

/-- The case-folded `"system32"` token compared at line 40. -/
def system32Tok : Str := "system32".toList

/-- `fmt.Sprintf("%s\\System32", systemRoot)`: replacement text for the
`system32` root token. -/
def sys32Rep (systemRoot : Str) : Str := systemRoot ++ ('\\' :: "System32".toList)

/-- Lines 33-42 of `parsePath`: strip the kernel object-namespace marker,
then substitute a leading `\systemroot` token, then a leading `system32`
token (each substitution via `strings.Replace(..., -1)` on the
original-case leading slice). -/
def normalizePfx (systemRoot : Str) (s : Str) : Str :=
  let v1 := if hasPfx kernelPfx s = true then s.drop 4 else s
  let v2 :=
    if 11 ≤ v1.length ∧ toLowerStr (v1.take 11) = sysrootTok then
      replaceAll (v1.take 11) systemRoot v1
    else v1
  if 8 ≤ v2.length ∧ toLowerStr (v2.take 8) = system32Tok then
    replaceAll (v2.take 8) (sys32Rep systemRoot) v2
  else v2

/-- The error values produced inside `parsePath` (Go returns fresh
`errors.New` values; only their identity matters to callers). -/
inductive PError where
  | emptyPath
  | expandErr
  | unclosedQuote
  | exeNotFound
deriving DecidableEq

/-- The external collaborators the core calls into, bundled: the
`SystemRoot` environment value, `registry.ExpandString` (`none` = error),
`exec.LookPath` (`none` = error), `filepath.Clean`, and `files.HashFile`
(`none` = error; the Go call returns the empty string alongside an error). -/
structure Env where
  systemRoot : Str
  expand : Str → Option Str
  lookPath : Str → Option Str
  clean : Str → Str
  hashFile : Str → Str → Option Str

-- Basic lemmas about the string primitives.

theorem hasPfx_append (p t : Str) : hasPfx p (p ++ t) = true := by
  induction p with
  | nil => rfl
  | cons c cs ih => simp [hasPfx, ih]

theorem hasPfx_take (n : Nat) (s : Str) : hasPfx (s.take n) s = true := by
  induction s generalizing n with
  | nil => cases n <;> rfl
  | cons c cs ih =>
    cases n with
    | zero => rfl
    | succ m => simp [List.take, hasPfx, ih]

theorem hasPfx_cons_head {c d : Char} {cs ds : Str}
    (h : hasPfx (c :: cs) (d :: ds) = true) : c = d := by
  simp only [hasPfx, Bool.and_eq_true, decide_eq_true_eq] at h
  exact h.1

theorem replaceAllGo_fuel (old new : Str) :
    ∀ (f g : Nat) (s : Str), s.length ≤ f → s.length ≤ g →
      replaceAllGo old new f s = replaceAllGo old new g s := by
  intro f
  induction f with
  | zero =>
    intro g s hf _
    have : s = [] := List.eq_nil_of_length_eq_zero (Nat.le_zero.mp hf)
    subst this
    cases g <;> rfl
  | succ f ih =>
    intro g s hf hg
    cases s with
    | nil => cases g <;> rfl
    | cons c rest =>
      cases g with
      | zero => exact absurd hg (by simp)
      | succ g =>
        simp only [replaceAllGo]
        by_cases h : old ≠ [] ∧ hasPfx old (c :: rest) = true
        · rw [if_pos h, if_pos h]
          have hlen : (rest.drop (old.length - 1)).length ≤ rest.length := by
            simp [List.length_drop]
          have h1 : (rest.drop (old.length - 1)).length ≤ f :=
            le_trans hlen (Nat.le_of_succ_le_succ (by simpa using hf))
          have h2 : (rest.drop (old.length - 1)).length ≤ g :=
            le_trans hlen (Nat.le_of_succ_le_succ (by simpa using hg))
          rw [ih g _ h1 h2]
        · rw [if_neg h, if_neg h]
          have h1 : rest.length ≤ f := Nat.le_of_succ_le_succ (by simpa using hf)
          have h2 : rest.length ≤ g := Nat.le_of_succ_le_succ (by simpa using hg)
          rw [ih g rest h1 h2]

theorem replaceAll_head_match (old new s : Str) (hne : old ≠ [])
    (hp : hasPfx old s = true) :
    replaceAll old new s = new ++ replaceAll old new (s.drop old.length) := by
  obtain ⟨o, os, rfl⟩ : ∃ o os, old = o :: os := by
    cases old with
    | nil => exact absurd rfl hne
    | cons o os => exact ⟨o, os, rfl⟩
  cases s with
  | nil => simp [hasPfx] at hp
  | cons c rest =>
    have hdrop : (c :: rest).drop (o :: os).length = rest.drop ((o :: os).length - 1) := by
      simp [List.length_cons]
    show replaceAllGo (o :: os) new (rest.length + 1) (c :: rest) = _
    simp only [replaceAllGo, if_pos (And.intro hne hp)]
    rw [hdrop]
    exact congrArg (new ++ ·)
      (replaceAllGo_fuel (o :: os) new rest.length
        (rest.drop ((o :: os).length - 1)).length (rest.drop ((o :: os).length - 1))
        (by simp [List.length_drop]) (le_refl _))

/-- The whitespace boundary the loop of `parsePath` reaches next from
`spaceIndex = i`: the next ` `/`\t` index strictly beyond `i`
(`spaceIndex += nextSpace + 1`), or the string length when none remains. -/
def nextBoundary (s : Str) (i : Nat) : Nat :=
  match indexAnyWs (s.drop (i + 1)) with
  | none => s.length
  | some n => i + 1 + n

/-- The progressive-prefix loop of `parsePath` (lines 69-88), from state
`spaceIndex = i`.  The loop advances `spaceIndex` strictly towards
`s.length` each iteration, so `s.length` iterations always suffice; the
fuel argument makes that bound structural (the zero-fuel branch is
unreachable from `searchExe`, see `searchExeGo_fuel`).  A failed lookup at
the final boundary falls through to the `spaceIndex == len(entryValue)`
check at the loop head, i.e. returns the not-found error. -/
def searchExeGo (lp : Str → Option Str) (s : Str) : Nat → Nat → Except PError (Str × Str)
  | 0, _ => .error .exeNotFound
  | fuel + 1, i =>
    match lp (s.take (nextBoundary s i)) with
    | some exePath =>
      .ok (exePath, if nextBoundary s i < s.length then s.drop (nextBoundary s i + 1) else [])
    | none =>
      if nextBoundary s i = s.length then .error .exeNotFound
      else searchExeGo lp s fuel (nextBoundary s i)

/-- The unquoted branch of `parsePath`: the loop entered with
`spaceIndex = 0`; the head check `spaceIndex == len(entryValue)` fires
immediately on the empty string. -/
def searchExe (lp : Str → Option Str) (s : Str) : Except PError (Str × Str) :=
  if s.length = 0 then .error .exeNotFound else searchExeGo lp s s.length 0

/-- Lines 52-89 of `parsePath`: split the expanded value into the raw
`(executable, arguments)` pair - quoted split when the value starts with
`"` (the text between the first two quotes, unverified), otherwise the
progressive-prefix search. -/
def splitCommand (lp : Str → Option Str) (s : Str) : Except PError (Str × Str) :=
  if hasPfx ('"' :: []) s = true then
    match indexOfChar '"' (s.drop 1) with
    | none => .error .unclosedQuote
    | some q => .ok ((s.drop 1).take q, s.drop (q + 2))
  else
    searchExe lp s

/-- `cleanPath` (lines 284-290): `exec.LookPath` then `filepath.Clean`;
`none` models the error return. -/
def cleanPath (env : Env) (file : Str) : Option Str :=
  (env.lookPath file).map env.clean

/-- Lines 49-95 of `parsePath`: the command-line resolver on the
normalized, expanded value - split, trim the argument tail, and replace
the executable by its cleaned resolution when `cleanPath` succeeds. -/
def resolveCommand (env : Env) (s : Str) : Except PError (Str × Str) :=
  match splitCommand env.lookPath s with
  | .error e => .error e
  | .ok (executable, arguments) =>
    .ok ((cleanPath env executable).getD executable, trimSpace arguments)

/-- `parsePath` (lines 29-96): reject the empty value, normalize the
kernel/root-token markers, expand environment references, then resolve. -/
def parsePath (env : Env) (entryValue : Str) : Except PError (Str × Str) :=
  if entryValue = [] then .error .emptyPath
  else
    match env.expand (normalizePfx env.systemRoot entryValue) with
    | none => .error .expandErr
    | some expanded => resolveCommand env expanded

/-- `os.IsPathSeparator` on windows: backslash or forward slash. -/
def isSlash (c : Char) : Bool := c = '\\' || c = '/'

/-- `volumeNameLen` of the windows path library: the length of the share
name part of a UNC path (the scan after the leading `\\host`). -/
def uncShareLen (path : Str) : Nat :=
  match (findIdxP isSlash ((path.drop 3).take (path.length - 1 - 3))).map (· + 3) with
  | none => 0
  | some k =>
    if isSlash (charAt path (k + 1)) = true then 0
    else if charAt path (k + 1) = '.' then 0
    else
      match findIdxP isSlash (path.drop (k + 1)) with
      | none => path.length
      | some m => k + 1 + m

/-- `volumeNameLen` of the windows path library: `2` for a drive-letter
volume, the `\\host\share` span for a UNC path, else `0`. -/
def volumeNameLen (path : Str) : Nat :=
  if path.length < 2 then 0
  else if charAt path 1 = ':' ∧
      (('a' ≤ charAt path 0 ∧ charAt path 0 ≤ 'z') ∨
        ('A' ≤ charAt path 0 ∧ charAt path 0 ≤ 'Z')) then 2
  else if 5 ≤ path.length ∧ isSlash (charAt path 0) = true ∧ isSlash (charAt path 1) = true ∧
      isSlash (charAt path 2) = false ∧ charAt path 2 ≠ '.' then uncShareLen path
  else 0

/-- `filepath.Base` on windows: `"."` for the empty path, else strip
trailing separators, drop the volume name, and keep what follows the last
separator (`"\\"` when only separators remain). -/
def goBase (path : Str) : Str :=
  if path = [] then '.' :: []
  else
    let p1 := (path.reverse.dropWhile isSlash).reverse
    let p2 := p1.drop (volumeNameLen p1)
    let p3 :=
      match findIdxP isSlash p2.reverse with
      | some j => p2.drop (p2.length - j)
      | none => p2
    if p3 = [] then '\\' :: [] else p3

/-- The digest names passed to `files.HashFile`. -/
def md5Alg : Str := "md5".toList

/-- Second digest name. -/
def sha1Alg : Str := "sha1".toList

/-- Third digest name. -/
def sha256Alg : Str := "sha256".toList

/-- The `Autorun` record (field list as written in the composite literal
at lines 115-126 and spec section 3; the struct declaration itself lives
in the repository's platform-independent file).  The Go field `Type` is
renamed `Typ` (reserved word). -/
structure Autorun where
  Typ : Str
  Location : Str
  ImagePath : Str
  ImageName : Str
  Arguments : Str
  MD5 : Str
  SHA1 : Str
  SHA256 : Str
  Entry : Str
  LaunchString : Str
deriving DecidableEq

/-- `stringToAutorun` (lines 98-129): keep the raw value as image path and
empty arguments unless the parse flag is set and `parsePath` succeeds;
hash whatever image path resulted (a failed hash contributes the empty
string); always record the untouched raw value as `LaunchString`. -/
def stringToAutorun (env : Env) (entryType entryLocation entryValue : Str)
    (toParse : Bool) (entry : Str) : Autorun :=
  let pr : Str × Str :=
    if toParse then
      match parsePath env entryValue with
      | .ok (executable, args) => (executable, args)
      | .error _ => (entryValue, [])
    else (entryValue, [])
  { Typ := entryType
    Location := entryLocation
    ImagePath := pr.1
    ImageName := goBase pr.1
    Arguments := pr.2
    MD5 := (env.hashFile pr.1 md5Alg).getD []
    SHA1 := (env.hashFile pr.1 sha1Alg).getD []
    SHA256 := (env.hashFile pr.1 sha256Alg).getD []
    Entry := entry
    LaunchString := entryValue }

/-- The boundaries the progressive-prefix search can stop at: a ` `/`\t`
position reachable by the scan (which starts at index 1), or the full
string length. -/
def isBoundaryB (s : Str) (b : Nat) : Bool :=
  (decide (0 < b) && decide (b < s.length) && isWsChar (charAt s b)) || decide (b = s.length)

-- Characterizations of the scanning primitives.

theorem charAt_cons_succ (c : Char) (s : Str) (i : Nat) :
    charAt (c :: s) (i + 1) = charAt s i := rfl

theorem charAt_drop (k : Nat) :
    ∀ (s : Str) (m : Nat), charAt (s.drop k) m = charAt s (k + m) := by
  induction k with
  | zero => intro s m; simp
  | succ k ih =>
    intro s m
    cases s with
    | nil => rfl
    | cons c rest =>
      show charAt (rest.drop k) m = charAt (c :: rest) (k + 1 + m)
      rw [ih, show k + 1 + m = (k + m) + 1 by omega, charAt_cons_succ]

theorem findIdxP_some_facts (p : Char → Bool) :
    ∀ (s : Str) (n : Nat), findIdxP p s = some n →
      n < s.length ∧ p (charAt s n) = true ∧ ∀ m, m < n → p (charAt s m) = false := by
  intro s
  induction s with
  | nil => intro n h; exact absurd h (by simp [findIdxP])
  | cons c rest ih =>
    intro n h
    by_cases hc : p c = true
    · simp only [findIdxP, if_pos hc, Option.some.injEq] at h
      subst h
      exact ⟨by simp, hc, fun m hm => absurd hm (by omega)⟩
    · simp only [findIdxP, if_neg hc, Option.map_eq_some'] at h
      obtain ⟨n', hn', rfl⟩ := h
      obtain ⟨h1, h2, h3⟩ := ih n' hn'
      refine ⟨by simpa using h1, by simpa [charAt_cons_succ] using h2, ?_⟩
      intro m hm
      cases m with
      | zero => simpa [charAt] using Bool.not_eq_true _ |>.mp hc
      | succ m' => rw [charAt_cons_succ]; exact h3 m' (by omega)

theorem findIdxP_none_facts (p : Char → Bool) :
    ∀ (s : Str), findIdxP p s = none → ∀ m, m < s.length → p (charAt s m) = false := by
  intro s
  induction s with
  | nil => intro _ m hm; exact absurd hm (by simp)
  | cons c rest ih =>
    intro h m hm
    by_cases hc : p c = true
    · simp [findIdxP, hc] at h
    · simp only [findIdxP, if_neg hc, Option.map_eq_none'] at h
      cases m with
      | zero => simpa [charAt] using Bool.not_eq_true _ |>.mp hc
      | succ m' => rw [charAt_cons_succ]; exact ih h m' (by simpa using hm)

theorem nextBoundary_gt (s : Str) (i : Nat) (hi : i < s.length) : i < nextBoundary s i := by
  unfold nextBoundary
  cases h : indexAnyWs (s.drop (i + 1)) with
  | none => simpa using hi
  | some n => simp; omega

theorem nextBoundary_le (s : Str) (i : Nat) : nextBoundary s i ≤ s.length := by
  unfold nextBoundary
  cases h : indexAnyWs (s.drop (i + 1)) with
  | none => simp
  | some n =>
    have h1 := (findIdxP_some_facts _ _ _ h).1
    rw [List.length_drop] at h1
    simp only
    omega

theorem isBoundaryB_le {s : Str} {b : Nat} (h : isBoundaryB s b = true) : b ≤ s.length := by
  simp only [isBoundaryB, Bool.or_eq_true, Bool.and_eq_true, decide_eq_true_eq] at h
  rcases h with ⟨⟨_, h2⟩, _⟩ | h
  · exact le_of_lt h2
  · exact le_of_eq h

theorem nextBoundary_isBoundary (s : Str) (i : Nat) (hi : i < s.length) :
    isBoundaryB s (nextBoundary s i) = true := by
  unfold nextBoundary
  cases h : indexAnyWs (s.drop (i + 1)) with
  | none => simp [isBoundaryB]
  | some n =>
    obtain ⟨hlt, hws, _⟩ := findIdxP_some_facts _ _ _ h
    rw [List.length_drop] at hlt
    rw [charAt_drop] at hws
    have hb : i + 1 + n < s.length := by omega
    simp [isBoundaryB, hws, hb]

theorem nextBoundary_min (s : Str) (i b' : Nat) (h1 : i < b') (h2 : b' < nextBoundary s i) :
    isBoundaryB s b' = false := by
  have hbl : b' < s.length := lt_of_lt_of_le h2 (nextBoundary_le s i)
  have hnws : isWsChar (charAt s b') = false := by
    unfold nextBoundary at h2
    have harr : i + 1 + (b' - (i + 1)) = b' := by omega
    cases h : indexAnyWs (s.drop (i + 1)) with
    | none =>
      have hm := findIdxP_none_facts _ _ h (b' - (i + 1))
        (by rw [List.length_drop]; omega)
      rwa [charAt_drop, harr] at hm
    | some n =>
      rw [h] at h2
      simp only at h2
      have hm := (findIdxP_some_facts _ _ _ h).2.2 (b' - (i + 1)) (by omega)
      rwa [charAt_drop, harr] at hm
  simp [isBoundaryB, hnws]
  omega

-- The loop: exhaustive failure and first acceptance, by fuel induction.

theorem searchExeGo_all_fail (lp : Str → Option Str) (s : Str) :
    ∀ (fuel i : Nat), i < s.length → s.length - i ≤ fuel →
      (∀ b, i < b → isBoundaryB s b = true → lp (s.take b) = none) →
      searchExeGo lp s fuel i = .error .exeNotFound := by
  intro fuel
  induction fuel with
  | zero => intro i _ _ _; rfl
  | succ fuel ih =>
    intro i hi hf hall
    have hgt : i < nextBoundary s i := nextBoundary_gt s i hi
    have hnone : lp (s.take (nextBoundary s i)) = none :=
      hall _ hgt (nextBoundary_isBoundary s i hi)
    simp only [searchExeGo, hnone]
    by_cases he : nextBoundary s i = s.length
    · rw [if_pos he]
    · rw [if_neg he]
      have hlt : nextBoundary s i < s.length := lt_of_le_of_ne (nextBoundary_le s i) he
      exact ih (nextBoundary s i) hlt (by omega)
        (fun b h1 h2 => hall b (lt_trans hgt h1) h2)

theorem searchExeGo_first_ok (lp : Str → Option Str) (s : Str) :
    ∀ (fuel i b : Nat) (p : Str), i < s.length → s.length - i ≤ fuel →
      i < b → isBoundaryB s b = true → lp (s.take b) = some p →
      (∀ b', i < b' → b' < b → isBoundaryB s b' = true → lp (s.take b') = none) →
      searchExeGo lp s fuel i = .ok (p, if b < s.length then s.drop (b + 1) else []) := by
  intro fuel
  induction fuel with
  | zero => intro i b p hi hf _ _ _ _; exact absurd hf (by omega)
  | succ fuel ih =>
    intro i b p hi hf hib hb hsome hmin
    have hgt : i < nextBoundary s i := nextBoundary_gt s i hi
    have hnle : nextBoundary s i ≤ s.length := nextBoundary_le s i
    have hble : b ≤ s.length := isBoundaryB_le hb
    have hbge : nextBoundary s i ≤ b := by
      by_contra hcon
      push_neg at hcon
      have hfalse := nextBoundary_min s i b hib hcon
      rw [hb] at hfalse
      exact absurd hfalse (by simp)
    rcases eq_or_lt_of_le hbge with heq | hlt
    · simp only [searchExeGo]
      rw [heq, hsome]
    · have hnone : lp (s.take (nextBoundary s i)) = none :=
        hmin _ hgt hlt (nextBoundary_isBoundary s i hi)
      simp only [searchExeGo, hnone]
      have hne : nextBoundary s i ≠ s.length := by
        have := isBoundaryB_le hb
        omega
      rw [if_neg hne]
      exact ih (nextBoundary s i) b p (by omega) (by omega) hlt hb hsome
        (fun b' h1 h2 h3 => hmin b' (lt_trans hgt h1) h2 h3)

theorem searchExeGo_fuel (lp : Str → Option Str) (s : Str) :
    ∀ (f g i : Nat), i < s.length → s.length - i ≤ f → s.length - i ≤ g →
      searchExeGo lp s f i = searchExeGo lp s g i := by
  intro f
  induction f with
  | zero => intro g i hi hf _; exact absurd hf (by omega)
  | succ f ih =>
    intro g i hi hf hg
    cases g with
    | zero => exact absurd hg (by omega)
    | succ g =>
      simp only [searchExeGo]
      cases hlp : lp (s.take (nextBoundary s i)) with
      | some p => rfl
      | none =>
        by_cases he : nextBoundary s i = s.length
        · rw [if_pos he, if_pos he]
        · rw [if_neg he, if_neg he]
          have h1 : i < nextBoundary s i := nextBoundary_gt s i hi
          have h2 : nextBoundary s i ≤ s.length := nextBoundary_le s i
          exact ih g (nextBoundary s i) (by omega) (by omega) (by omega)

/-- Decidable equality of resolver results, for concrete evaluation. -/
instance {ε α : Type} [DecidableEq ε] [DecidableEq α] : DecidableEq (Except ε α) := fun x y =>
  match x, y with
  | .ok a, .ok b =>
    if h : a = b then isTrue (congrArg Except.ok h)
    else isFalse (fun hc => h (Except.ok.inj hc))
  | .error e, .error f =>
    if h : e = f then isTrue (congrArg Except.error h)
    else isFalse (fun hc => h (Except.error.inj hc))
  | .ok _, .error _ => isFalse (fun hc => Except.noConfusion hc)
  | .error _, .ok _ => isFalse (fun hc => Except.noConfusion hc)

theorem indexOfChar_eq_none {target : Char} {s : Str} (h : target ∉ s) :
    indexOfChar target s = none := by
  induction s with
  | nil => rfl
  | cons d ds ih =>
    simp only [List.mem_cons, not_or] at h
    unfold indexOfChar findIdxP
    rw [if_neg (by simpa using Ne.symm h.1)]
    have hrec : indexOfChar target ds = none := ih h.2
    unfold indexOfChar at hrec
    rw [hrec]
    rfl

-- C1.

/-- C1: every record built by `stringToAutorun` carries the raw input
value verbatim in `LaunchString`, for either parse-flag setting and
independently of parse success or failure. -/
theorem c1_launchString_verbatim (env : Env) (entryType entryLocation entryValue : Str)
    (toParse : Bool) (entry : Str) :
    (stringToAutorun env entryType entryLocation entryValue toParse entry).LaunchString
      = entryValue := rfl

-- C2.

/-- C2: when the parse flag is set and `parsePath` fails with any error,
the builder still emits a record whose `ImagePath` is the raw value
unmodified and whose `Arguments` is empty. -/
theorem c2_degrade_on_error (env : Env) (entryType entryLocation entryValue entry : Str)
    (err : PError) (h : parsePath env entryValue = .error err) :
    (stringToAutorun env entryType entryLocation entryValue true entry).ImagePath
        = entryValue ∧
    (stringToAutorun env entryType entryLocation entryValue true entry).Arguments = [] := by
  constructor <;> simp [stringToAutorun, h]

/-- Environment used to exhibit a failing parse for C2: expansion is the
identity, the locator and hasher always fail. -/
def c2Env : Env :=
  { systemRoot := [], expand := fun t => some t, lookPath := fun _ => none,
    clean := fun t => t, hashFile := fun _ _ => none }

/-- The unterminated-quote raw value used for the C2 witness. -/
def c2Val : Str := "\"C:\\app.exe".toList

theorem c2_degrade_on_error_witness :
    parsePath c2Env c2Val = .error .unclosedQuote ∧
    ((stringToAutorun c2Env ("run_key".toList) [] c2Val true []).ImagePath = c2Val ∧
      (stringToAutorun c2Env ("run_key".toList) [] c2Val true []).Arguments = []) :=
  ⟨by decide, c2_degrade_on_error c2Env ("run_key".toList) [] c2Val [] .unclosedQuote (by decide)⟩

-- C7.

/-- C7: a resolver input that starts with a quote character and contains
no second quote fails with the unclosed-quote error, never a partial
split. -/
theorem c7_unclosed_quote (env : Env) (rest : Str) (h : ('"' : Char) ∉ rest) :
    resolveCommand env ('"' :: rest) = .error .unclosedQuote := by
  have hidx : indexOfChar '"' (('"' :: rest).drop 1) = none := indexOfChar_eq_none h
  unfold resolveCommand splitCommand
  rw [if_pos (by rfl), hidx]

/-- Environment for the C7 witness. -/
def c7Env : Env :=
  { systemRoot := [], expand := fun t => some t, lookPath := fun _ => none,
    clean := fun t => t, hashFile := fun _ _ => none }

theorem c7_unclosed_quote_witness :
    resolveCommand c7Env ('"' :: ("C:\\app.exe".toList)) = .error .unclosedQuote :=
  c7_unclosed_quote c7Env ("C:\\app.exe".toList) (by decide)

-- C8.

/-- C8: on the empty raw value with the parse flag set, `parsePath` fails
with the empty-path error, yet the builder emits a record with empty
`ImagePath`, `Arguments` and digests (hashing the empty path fails). -/
theorem c8_empty_value (env : Env) (entryType entryLocation entry : Str)
    (hh : ∀ alg, env.hashFile [] alg = none) :
    parsePath env [] = .error .emptyPath ∧
    (stringToAutorun env entryType entryLocation [] true entry).ImagePath = [] ∧
    (stringToAutorun env entryType entryLocation [] true entry).Arguments = [] ∧
    (stringToAutorun env entryType entryLocation [] true entry).MD5 = [] ∧
    (stringToAutorun env entryType entryLocation [] true entry).SHA1 = [] ∧
    (stringToAutorun env entryType entryLocation [] true entry).SHA256 = [] := by
  have hp : parsePath env [] = .error .emptyPath := rfl
  refine ⟨hp, ?_, ?_, ?_, ?_, ?_⟩ <;> simp [stringToAutorun, hp, hh]

/-- Environment for the C8 witness. -/
def c8Env : Env :=
  { systemRoot := [], expand := fun t => some t, lookPath := fun _ => none,
    clean := fun t => t, hashFile := fun _ _ => none }

theorem c8_empty_value_witness :
    parsePath c8Env [] = .error .emptyPath ∧
    (stringToAutorun c8Env ("service".toList) [] [] true []).ImagePath = [] ∧
    (stringToAutorun c8Env ("service".toList) [] [] true []).Arguments = [] ∧
    (stringToAutorun c8Env ("service".toList) [] [] true []).MD5 = [] ∧
    (stringToAutorun c8Env ("service".toList) [] [] true []).SHA1 = [] ∧
    (stringToAutorun c8Env ("service".toList) [] [] true []).SHA256 = [] :=
  c8_empty_value c8Env ("service".toList) [] [] (fun _ => rfl)

-- C10.

/-- C10: a record whose `ImagePath` came out empty has `ImageName` `"."`,
the base of the empty path, not the empty string. -/
theorem c10_imageName_dot (env : Env) (entryType entryLocation entryValue : Str)
    (toParse : Bool) (entry : Str)
    (h : (stringToAutorun env entryType entryLocation entryValue toParse entry).ImagePath
      = []) :
    (stringToAutorun env entryType entryLocation entryValue toParse entry).ImageName
      = '.' :: [] := by
  have hbase : (stringToAutorun env entryType entryLocation entryValue toParse entry).ImageName
      = goBase ((stringToAutorun env entryType entryLocation entryValue toParse entry).ImagePath) :=
    rfl
  rw [hbase, h]
  rfl

/-- Environment for the C10 witness. -/
def c10Env : Env :=
  { systemRoot := [], expand := fun t => some t, lookPath := fun _ => none,
    clean := fun t => t, hashFile := fun _ _ => none }

theorem c10_imageName_dot_witness :
    (stringToAutorun c10Env ("run_key".toList) [] [] true []).ImagePath = [] ∧
    (stringToAutorun c10Env ("run_key".toList) [] [] true []).ImageName = '.' :: [] :=
  ⟨rfl, c10_imageName_dot c10Env ("run_key".toList) [] [] true [] rfl⟩

-- C9.

/-- C9: loop progress of the progressive-prefix search: from any state
inside the string, the next boundary strictly exceeds the current index
and never passes the string length; the loop's result does not depend on
the fuel bound beyond the remaining distance (the iteration always
terminates within it); and an iteration whose boundary is the string
length exits at once, accepting a candidate or returning the not-found
error. -/
theorem c9_loop_progress (s : Str) (i : Nat) (hi : i < s.length) :
    (i < nextBoundary s i ∧ nextBoundary s i ≤ s.length) ∧
    (∀ (lp : Str → Option Str) (f g : Nat),
      s.length - i ≤ f → s.length - i ≤ g →
      searchExeGo lp s f i = searchExeGo lp s g i) ∧
    (∀ (lp : Str → Option Str) (fuel : Nat), nextBoundary s i = s.length →
      searchExeGo lp s (fuel + 1) i = .error .exeNotFound ∨
      ∃ r, searchExeGo lp s (fuel + 1) i = .ok r) := by
  refine ⟨⟨nextBoundary_gt s i hi, nextBoundary_le s i⟩, ?_, ?_⟩
  · intro lp f g hf hg
    exact searchExeGo_fuel lp s f g i hi hf hg
  · intro lp fuel he
    simp only [searchExeGo]
    cases hlp : lp (s.take (nextBoundary s i)) with
    | some p => exact Or.inr ⟨_, rfl⟩
    | none => rw [if_pos he]; exact Or.inl rfl

/-- The concrete string of the C9 witness. -/
def c9s : Str := "a b".toList

theorem c9_loop_progress_witness :
    (0 < nextBoundary c9s 0 ∧ nextBoundary c9s 0 ≤ c9s.length) ∧
    (∀ (lp : Str → Option Str) (f g : Nat),
      c9s.length - 0 ≤ f → c9s.length - 0 ≤ g →
      searchExeGo lp c9s f 0 = searchExeGo lp c9s g 0) ∧
    (∀ (lp : Str → Option Str) (fuel : Nat), nextBoundary c9s 0 = c9s.length →
      searchExeGo lp c9s (fuel + 1) 0 = .error .exeNotFound ∨
      ∃ r, searchExeGo lp c9s (fuel + 1) 0 = .ok r) :=
  c9_loop_progress c9s 0 (by decide)

-- C5.

/-- C5: the kernel object-namespace marker is stripped before either
root-token substitution is attempted: on `\??\t`, the marker is removed
and, when `t` begins case-insensitively with `system32`, the system32
substitution fires on the exposed token; and when `t` begins
case-insensitively with `\systemroot`, the systemroot substitution fires
on the exposed token (an implementation attempting the substitutions
before stripping would fire neither, since the unstripped string starts
with `\??\` and matches neither token).  The side condition of the second
part only rules out the substituted string itself re-triggering the
system32 stage. -/
theorem c5_strip_before_subst (systemRoot t : Str) :
    (8 ≤ t.length → toLowerStr (t.take 8) = system32Tok →
      normalizePfx systemRoot (kernelPfx ++ t)
        = sys32Rep systemRoot ++ replaceAll (t.take 8) (sys32Rep systemRoot) (t.drop 8)) ∧
    (11 ≤ t.length → toLowerStr (t.take 11) = sysrootTok →
      toLowerStr ((systemRoot ++ replaceAll (t.take 11) systemRoot (t.drop 11)).take 8)
          ≠ system32Tok →
      normalizePfx systemRoot (kernelPfx ++ t)
        = systemRoot ++ replaceAll (t.take 11) systemRoot (t.drop 11)) := by
  constructor
  · intro h8 hlow
    obtain ⟨c, t', rfl⟩ : ∃ c t', t = c :: t' := by
      cases t with
      | nil => simp at h8
      | cons c t' => exact ⟨c, t', rfl⟩
    have hc : Char.toLower c = 's' := by
      have h1 : Char.toLower c :: toLowerStr (t'.take 7) = 's' :: "ystem32".toList := hlow
      injection h1
    have hsys : ¬ (11 ≤ (c :: t').length ∧ toLowerStr ((c :: t').take 11) = sysrootTok) := by
      rintro ⟨_, hcon⟩
      have h2 : Char.toLower c :: toLowerStr (t'.take 10) = '\\' :: "systemroot".toList := hcon
      have h3 : Char.toLower c = '\\' := by injection h2
      rw [hc] at h3
      exact absurd h3 (by decide)
    have hs32 : 8 ≤ (c :: t').length ∧ toLowerStr ((c :: t').take 8) = system32Tok :=
      ⟨h8, hlow⟩
    have hdrop : (kernelPfx ++ (c :: t')).drop 4 = c :: t' := by
      have h4 : kernelPfx.length = 4 := rfl
      rw [← h4, List.drop_left]
    have hne : (c :: t').take 8 ≠ [] := by simp
    have hlen8 : ((c :: t').take 8).length = 8 := by
      rw [List.length_take]
      omega
    simp only [normalizePfx]
    rw [if_pos (hasPfx_append kernelPfx (c :: t')), hdrop, if_neg hsys, if_pos hs32,
      replaceAll_head_match _ _ _ hne (hasPfx_take 8 (c :: t')), hlen8]
  · intro h11 hlow hnot
    obtain ⟨c, t', rfl⟩ : ∃ c t', t = c :: t' := by
      cases t with
      | nil => simp at h11
      | cons c t' => exact ⟨c, t', rfl⟩
    have hsys : 11 ≤ (c :: t').length ∧ toLowerStr ((c :: t').take 11) = sysrootTok :=
      ⟨h11, hlow⟩
    have hdrop : (kernelPfx ++ (c :: t')).drop 4 = c :: t' := by
      have h4 : kernelPfx.length = 4 := rfl
      rw [← h4, List.drop_left]
    have hne : (c :: t').take 11 ≠ [] := by simp
    have hlen11 : ((c :: t').take 11).length = 11 := by
      rw [List.length_take]
      omega
    simp only [normalizePfx]
    rw [if_pos (hasPfx_append kernelPfx (c :: t')), hdrop, if_pos hsys,
      replaceAll_head_match _ _ _ hne (hasPfx_take 11 (c :: t')), hlen11,
      if_neg (fun hcon => hnot hcon.2)]

/-- System root used in the C5 witness. -/
def c5sr : Str := "C:\\Windows".toList

/-- `system32`-leading tail used in the C5 witness. -/
def c5t : Str := "system32\\drivers\\svc.exe".toList

/-- `\systemroot`-leading tail used in the C5 witness (mixed case). -/
def c5rt : Str := "\\SystemRoot\\foo.exe".toList

theorem c5_strip_before_subst_witness :
    normalizePfx c5sr (kernelPfx ++ c5t)
      = sys32Rep c5sr ++ replaceAll (c5t.take 8) (sys32Rep c5sr) (c5t.drop 8) ∧
    normalizePfx c5sr (kernelPfx ++ c5rt)
      = c5sr ++ replaceAll (c5rt.take 11) c5sr (c5rt.drop 11) :=
  ⟨(c5_strip_before_subst c5sr c5t).1 (by decide) (by decide),
    (c5_strip_before_subst c5sr c5rt).2 (by decide) (by decide) (by decide)⟩

-- C6.

/-- System root used for C6. -/
def c6sr : Str := "C:\\Windows".toList

/-- C6 counterexample input: the token recurs after the leading
occurrence. -/
def c6in : Str := "system32\\system32".toList

/-- C6 counterexample: with system root `C:\Windows` and input
`system32\system32`, normalization rewrites the second, non-leading
occurrence of the token as well, so the rest of the string is NOT left
otherwise unchanged. -/
theorem c6_counterexample :
    normalizePfx c6sr c6in ≠ sys32Rep c6sr ++ c6in.drop 8 ∧
    normalizePfx c6sr c6in = sys32Rep c6sr ++ '\\' :: sys32Rep c6sr := by decide

/-- C6 (amended): on an input beginning, case-insensitively, with the
token `system32`, normalization substitutes `<SystemRoot>\System32` for
the leading token AND for every later case-exact occurrence of the
leading eight characters (the substitution is a replace-all on the
original-case leading slice); the rest of the string is unchanged exactly
when the leading slice does not recur. -/
theorem c6_leading_subst (systemRoot s : Str) (h8 : 8 ≤ s.length)
    (hlow : toLowerStr (s.take 8) = system32Tok) :
    normalizePfx systemRoot s
      = sys32Rep systemRoot ++ replaceAll (s.take 8) (sys32Rep systemRoot) (s.drop 8) := by
  obtain ⟨c, t', rfl⟩ : ∃ c t', s = c :: t' := by
    cases s with
    | nil => simp at h8
    | cons c t' => exact ⟨c, t', rfl⟩
  have hc : Char.toLower c = 's' := by
    have h1 : Char.toLower c :: toLowerStr (t'.take 7) = 's' :: "ystem32".toList := hlow
    injection h1
  have hcbs : c ≠ '\\' := by
    intro hcc
    rw [hcc] at hc
    exact absurd hc (by decide)
  have hk : ¬ hasPfx kernelPfx (c :: t') = true := by
    intro hcon
    exact hcbs (hasPfx_cons_head
      (hcon : hasPfx ('\\' :: ("??\\".toList)) (c :: t') = true)).symm
  have hsys : ¬ (11 ≤ (c :: t').length ∧ toLowerStr ((c :: t').take 11) = sysrootTok) := by
    rintro ⟨_, hcon⟩
    have h2 : Char.toLower c :: toLowerStr (t'.take 10) = '\\' :: "systemroot".toList := hcon
    have h3 : Char.toLower c = '\\' := by injection h2
    rw [hc] at h3
    exact absurd h3 (by decide)
  have hs32 : 8 ≤ (c :: t').length ∧ toLowerStr ((c :: t').take 8) = system32Tok := ⟨h8, hlow⟩
  have hne : (c :: t').take 8 ≠ [] := by simp
  have hlen8 : ((c :: t').take 8).length = 8 := by
    rw [List.length_take]
    omega
  simp only [normalizePfx]
  rw [if_neg hk, if_neg hsys, if_pos hs32,
    replaceAll_head_match _ _ _ hne (hasPfx_take 8 (c :: t')), hlen8]

/-- Input of the C6 witness (mixed case, token not recurring). -/
def c6wIn : Str := "System32\\foo.exe".toList

theorem c6_leading_subst_witness :
    normalizePfx c6sr c6wIn
      = sys32Rep c6sr ++ replaceAll (c6wIn.take 8) (sys32Rep c6sr) (c6wIn.drop 8) :=
  c6_leading_subst c6sr c6wIn (by decide) (by decide)

-- C3.

/-- C3: for a non-quoted, nonempty resolver input, the progressive-prefix
search is exact: the resolver fails with the not-found error precisely
when the locator rejects every whitespace-boundary prefix including the
full string; and when `b` is the shortest boundary whose prefix the
locator resolves (to `p`), the resolver accepts it, returning the cleaned
resolution and, as arguments, the remainder past the boundary whitespace,
trimmed. -/
theorem c3_progressive_search (env : Env) (s : Str)
    (hq : hasPfx ('"' :: []) s = false) (hs : s ≠ []) :
    (resolveCommand env s = .error .exeNotFound ↔
      ∀ b, isBoundaryB s b = true → env.lookPath (s.take b) = none) ∧
    (∀ b p, isBoundaryB s b = true → env.lookPath (s.take b) = some p →
      (∀ b', b' < b → isBoundaryB s b' = true → env.lookPath (s.take b') = none) →
      resolveCommand env s = .ok ((cleanPath env p).getD p,
        trimSpace (if b < s.length then s.drop (b + 1) else []))) := by
  have hlen : 0 < s.length := List.length_pos.mpr hs
  have hsplit : resolveCommand env s =
      match searchExeGo env.lookPath s s.length 0 with
      | .error e => .error e
      | .ok (executable, arguments) =>
        .ok ((cleanPath env executable).getD executable, trimSpace arguments) := by
    unfold resolveCommand splitCommand searchExe
    rw [if_neg (by simp [hq]), if_neg (by omega)]
  have hOK : ∀ b p, isBoundaryB s b = true → env.lookPath (s.take b) = some p →
      (∀ b', b' < b → isBoundaryB s b' = true → env.lookPath (s.take b') = none) →
      resolveCommand env s = .ok ((cleanPath env p).getD p,
        trimSpace (if b < s.length then s.drop (b + 1) else [])) := by
    intro b p hb hsome hmin
    have hb0 : 0 < b := by
      rcases Nat.eq_zero_or_pos b with h0 | h0
      · subst h0
        simp only [isBoundaryB, Bool.or_eq_true, Bool.and_eq_true, decide_eq_true_eq] at hb
        rcases hb with ⟨⟨h01, _⟩, _⟩ | h02
        · omega
        · omega
      · exact h0
    have hloop := searchExeGo_first_ok env.lookPath s s.length 0 b p hlen (by omega)
      hb0 hb hsome (fun b' _ h2 h3 => hmin b' h2 h3)
    rw [hsplit, hloop]
  refine ⟨⟨?_, ?_⟩, hOK⟩
  · intro herr b hb
    by_contra hne
    obtain ⟨p, hp⟩ := Option.ne_none_iff_exists'.mp hne
    have hex : ∃ n, isBoundaryB s n = true ∧ (env.lookPath (s.take n)).isSome = true :=
      ⟨b, hb, by simp [hp]⟩
    obtain ⟨p0, hp0⟩ := Option.isSome_iff_exists.mp (Nat.find_spec hex).2
    have hminN : ∀ b', b' < Nat.find hex → isBoundaryB s b' = true →
        env.lookPath (s.take b') = none := by
      intro b' hlt hbb
      have hm := Nat.find_min hex hlt
      by_contra hne'
      obtain ⟨p', hp'⟩ := Option.ne_none_iff_exists'.mp hne'
      exact hm ⟨hbb, by simp [hp']⟩
    have hres := hOK (Nat.find hex) p0 (Nat.find_spec hex).1 hp0 hminN
    rw [hres] at herr
    exact Except.noConfusion herr
  · intro hall
    have hloop := searchExeGo_all_fail env.lookPath s s.length 0 hlen (by omega)
      (fun b _ hb => hall b hb)
    rw [hsplit, hloop]

/-- The locator of the C3 witness: only the two-word prefix `a b`
resolves (to `a.exe`); in particular the one-word prefix fails. -/
def c3lp : Str → Option Str :=
  fun t => if t = "a b".toList then some ("a.exe".toList) else none

/-- Environment of the C3 witness. -/
def c3Env : Env :=
  { systemRoot := [], expand := fun t => some t, lookPath := c3lp,
    clean := fun t => t, hashFile := fun _ _ => none }

/-- Input of the C3 witness: boundaries 1, 3, and 5. -/
def c3s : Str := "a b c".toList

theorem c3_progressive_search_witness :
    resolveCommand c3Env c3s = .ok ((cleanPath c3Env ("a.exe".toList)).getD ("a.exe".toList),
      trimSpace (if 3 < c3s.length then c3s.drop (3 + 1) else [])) :=
  (c3_progressive_search c3Env c3s (by decide) (by decide)).2 3 ("a.exe".toList)
    (by decide) (by decide) (by decide)

-- C4.

/-- The locator of the C4 counterexample: the quoted text `a` resolves to
a different full path. -/
def c4lp : Str → Option Str :=
  fun t => if t = "a".toList then some ("C:\\dir\\app.exe".toList) else none

/-- Environment of the C4 counterexample. -/
def c4Env : Env :=
  { systemRoot := [], expand := fun t => some t, lookPath := c4lp,
    clean := fun t => t, hashFile := fun _ _ => none }

/-- Quoted input of the C4 counterexample. -/
def c4in : Str := "\"a\" b".toList

/-- C4 counterexample: for the quoted input `"a" b` under a locator that
resolves `a` to `C:\dir\app.exe`, the resolver's final cleanup step
replaces the quoted text with the locator's resolution, so the returned
executable is NOT the text between the quotes even though the arguments
are the trimmed tail. -/
theorem c4_counterexample :
    resolveCommand c4Env c4in = .ok ("C:\\dir\\app.exe".toList, "b".toList) ∧
    ("C:\\dir\\app.exe".toList : Str) ≠ "a".toList := by decide

/-- C4 (amended): the quoted split takes the text between the first two
quotes with no locator verification and never falls back to the unquoted
search; the final cleanup then substitutes the locator's cleaned
resolution of that text when the locator resolves it, and returns the
text exactly as written between the quotes when the locator fails on it;
the arguments are the tail after the closing quote, trimmed, in both
cases. -/
theorem c4_quoted_split (env : Env) (rest : Str) (q : Nat)
    (hq : indexOfChar '"' rest = some q) :
    resolveCommand env ('"' :: rest) =
      .ok ((cleanPath env (rest.take q)).getD (rest.take q),
        trimSpace (rest.drop (q + 1))) := by
  have hq' : indexOfChar '"' (('"' :: rest).drop 1) = some q := hq
  unfold resolveCommand splitCommand
  rw [if_pos (by rfl), hq']
  rfl

/-- Environment of the C4 witness: the locator fails everywhere, so the
quoted text is returned exactly as written. -/
def c4wEnv : Env :=
  { systemRoot := [], expand := fun t => some t, lookPath := fun _ => none,
    clean := fun t => t, hashFile := fun _ _ => none }

theorem c4_quoted_split_witness :
    resolveCommand c4wEnv ('"' :: ("a\" b".toList)) =
      .ok ((cleanPath c4wEnv (("a\" b".toList).take 1)).getD (("a\" b".toList).take 1),
        trimSpace (("a\" b".toList).drop (1 + 1))) :=
  c4_quoted_split c4wEnv ("a\" b".toList) 1 (by decide)
